import Mathlib

/-!
Verification development for the fgql-analyzer dependency engine.

The definitions below are a shallow embedding of the JavaScript sources
`src/analyzer.js` (type registry model, selection-spec tokenizer and parser,
key-field extraction, the type-resolution walker `resolveTypeAndCheckKeyField`
and the dependency-recording second pass of `analyzeSchema`) and
`src/query.js` (`queryDependencies` and its `filterLeafDependencies`).
JavaScript `Map`s keyed by strings are embedded as insertion-ordered
association lists; `null`/`undefined` string values are embedded as
`Option String`; JavaScript truthiness on strings (empty string is falsy)
is made explicit via `strTruthy`.
-/

set_option maxHeartbeats 1000000

namespace Fgql

/-- A directive argument as seen by the analyzer: `arg.name.value` and the
string payload `arg.value.value` of its literal. -/
structure Arg where
  name : String
  value : String
deriving DecidableEq

/-- A directive attached to a field or type: `directive.name.value` plus its
argument list. -/
structure Directive where
  name : String
  args : List Arg
deriving DecidableEq

/-- Per-field registry entry: `name`, the innermost named type (`null` when the
AST node was not a named type, hence `Option`), and the verbatim directive
list.  The wrapper booleans `isListType`/`isNonNullType` of the source are
irrelevant to every claim and are omitted. -/
structure FieldDef where
  name : String
  type : Option String
  directives : List Directive
deriving DecidableEq

/-- Registry entry for a type or interface.  `fields` embeds the JS `Map`
(insertion-ordered, distinct keys). -/
structure TypeDef where
  name : String
  fields : List (String × FieldDef)
  isInterface : Bool
  isExtension : Bool
  interfaces : List String := []
  keyFields : List String
deriving DecidableEq

/-- A dependency record exactly as pushed by `analyzeSchema` and consumed by
`queryDependencies`.  `dependedType`/`fieldPath` may be `null` at query time,
hence `Option`. -/
structure Dependency where
  dependingType : String
  dependingField : String
  dependingSubgraph : String
  dependedType : Option String
  dependedField : String
  directive : String
  fieldPath : Option String
deriving DecidableEq

/-- One `(field, path)` pair produced by `parseFieldSpec`. -/
structure SpecDep where
  field : String
  path : String
deriving DecidableEq

/-- One resolution returned by `resolveTypeAndCheckKeyField` (the dead
`typeResolutionChain`, always `[]` in the source, is omitted). -/
structure Resolution where
  actualType : Option String
  isKeyField : Bool
deriving DecidableEq

/-- The analysis state: `types` and `implementations` embed the JS `Map`s,
`dependencies` the growing dependency list. -/
structure Analysis where
  types : List (String × TypeDef)
  implementations : List (String × List String)
  dependencies : List Dependency
deriving DecidableEq

/-- Association-list lookup; embeds `Map.get` / object indexing. -/
def assocFind {β : Type} : List (String × β) → String → Option β
  | [], _ => none
  | (k, v) :: rest, key => if k = key then some v else assocFind rest key

/-- `Array.prototype.includes` on string arrays. -/
def includes : List String → String → Bool
  | [], _ => false
  | x :: xs, s => if x = s then true else includes xs s

/-- JS truthiness of a possibly-null string (`null`, `undefined` and `""` are
falsy). -/
def strTruthy : Option String → Bool
  | none => false
  | some s => s ≠ ""

/-- JS `x || dflt` on a possibly-null string. -/
def jsOr : Option String → String → String
  | some s, dflt => if s = "" then dflt else s
  | none, dflt => dflt

/-- `String.prototype.trim` on the character list of a string. -/
def jsTrim (cs : List Char) : List Char :=
  ((cs.dropWhile Char.isWhitespace).reverse.dropWhile Char.isWhitespace).reverse

/-- Worker for `jsSplitWs`: accumulates the current chunk and flushes it at
whitespace boundaries, dropping empty chunks. -/
def jsSplitWsAux : List Char → List Char → List String
  | [], cur => if cur = [] then [] else [String.mk cur]
  | c :: rest, cur =>
    if c.isWhitespace then
      if cur = [] then jsSplitWsAux rest []
      else String.mk cur :: jsSplitWsAux rest []
    else jsSplitWsAux rest (cur ++ [c])

/-- `String.prototype.split(/\s+/)` restricted to its use in the source: the
input is always trimmed first, so empty chunks never occur and are dropped. -/
def jsSplitWs (cs : List Char) : List String :=
  jsSplitWsAux cs []

/-- The flush performed by `tokenizeFieldSpec` when it hits a brace or the end
of input: split the pending chunk on whitespace and keep every part other than
the bare fragment-spread punctuation. -/
def flushParts (tokens : List String) (cur : List Char) : List String :=
  tokens ++ ((jsSplitWs (jsTrim cur)).filter (fun part => part ≠ "..."))

/-- Character loop of `tokenizeFieldSpec` (analyzer.js).  `tokens` is the
output accumulator, `cur` the pending `current` string.  Note that the source
resets `current` only inside the `if (current.trim())` guards, which this
mirrors. -/
def tokLoop : List Char → List String → List Char → List String
  | [], tokens, cur =>
    if (jsTrim cur) = [] then tokens
    else flushParts tokens cur
  | c :: rest, tokens, cur =>
    if c = '{' ∨ c = '}' then
      if (jsTrim cur) = [] then
        tokLoop rest (tokens ++ [String.mk [c]]) cur
      else
        tokLoop rest (flushParts tokens cur ++ [String.mk [c]]) []
    else if c = ' ' ∨ c = '\n' ∨ c = '\t' then
      if (jsTrim cur) = [] then
        tokLoop rest tokens cur
      else if String.mk (jsTrim cur) = "..." then
        tokLoop rest tokens []
      else
        tokLoop rest (tokens ++ [String.mk (jsTrim cur)]) []
    else
      tokLoop rest tokens (cur ++ [c])

/-- `tokenizeFieldSpec` (analyzer.js): split a field-spec string on braces and
whitespace, dropping only tokens that are exactly the three dots. -/
def tokenizeFieldSpec (s : String) : List String :=
  tokLoop s.data [] []

/-- Token loop of `parseFieldSpec`: maintain the path stack, emit a pair for
every non-brace token, and pop immediately when the next token does not open a
nested selection. -/
def parseLoop : List String → List String → List SpecDep
  | [], _ => []
  | tok :: rest, currentPath =>
    if tok = "\x7b" then
      parseLoop rest currentPath
    else if tok = "\x7d" then
      parseLoop rest currentPath.dropLast
    else
      let pushed := currentPath ++ [tok]
      let dep : SpecDep := ⟨tok, String.intercalate "." pushed⟩
      match rest with
      | next :: _ =>
        if next = "\x7b" then dep :: parseLoop rest pushed
        else dep :: parseLoop rest currentPath
      | [] => dep :: parseLoop rest currentPath

/-- `parseFieldSpec` (analyzer.js): ordered `(field, dottedPath)` pairs of a
field-spec string. -/
def parseFieldSpec (fieldSpec : String) : List SpecDep :=
  parseLoop (tokenizeFieldSpec fieldSpec) []

/-- `extractKeyFields` (analyzer.js): for every `@key` directive with a truthy
`fields` argument, append the flat whitespace-split chunks of its string. -/
def extractKeyFields (directives : List Directive) : List String :=
  directives.foldl
    (fun keyFields d =>
      if d.name = "key" then
        match d.args.find? (fun arg => arg.name = "fields") with
        | some fieldsArg =>
          if fieldsArg.value ≠ "" then
            keyFields ++ jsSplitWs (jsTrim fieldsArg.value.data)
          else keyFields
        | none => keyFields
      else keyFields)
    []

/-- Worker for `jsSplitDot`. -/
def splitDotAux : List Char → List Char → List String
  | [], cur => [String.mk cur]
  | c :: rest, cur =>
    if c = '.' then String.mk cur :: splitDotAux rest []
    else splitDotAux rest (cur ++ [c])

/-- JS `String.prototype.split('.')`: empty chunks are kept, and the empty
string splits to `[""]`. -/
def jsSplitDot (s : String) : List String :=
  splitDotAux s.data []

/-- `analysis.types.get(pos)` where `pos` may be `null`. -/
def Analysis.getType (a : Analysis) : Option String → Option TypeDef
  | none => none
  | some n => assocFind a.types n

/-- `analysis.implementations.get(pos) || []` where `pos` may be `null`. -/
def Analysis.getImpls (a : Analysis) : Option String → List String
  | none => []
  | some n => (assocFind a.implementations n).getD []

/-- The first-match interface scan of `resolveTypeAndCheckKeyField`'s segment
loop: walk the implementation list and return the field of the first
implementation that both exists in the registry and defines the field. -/
def lookupImplField (a : Analysis) (fieldName : String) : List String → Option FieldDef
  | [] => none
  | implTypeName :: rest =>
    match assocFind a.types implTypeName with
    | some implType =>
      match assocFind implType.fields fieldName with
      | some f => some f
      | none => lookupImplField a fieldName rest
    | none => lookupImplField a fieldName rest

/-- The segment loop of `resolveTypeAndCheckKeyField` over all path parts but
the last: each `break` of the source leaves `currentPosition` unchanged and
stops. -/
def walkSegments (a : Analysis) : List String → Option String → Option String
  | [], pos => pos
  | fieldName :: rest, pos =>
    match a.getType pos with
    | none => pos
    | some typeInfo =>
      let fieldInfo :=
        match assocFind typeInfo.fields fieldName with
        | some f => some f
        | none =>
          if typeInfo.isInterface then lookupImplField a fieldName (a.getImpls pos)
          else none
      match fieldInfo with
      | none => pos
      | some f => walkSegments a rest f.type

/-- `resolveTypeAndCheckKeyField` (analyzer.js).  The source's unused
`currentType` parameter is dropped; the JS convention of returning either a
single resolution object or a non-empty array of resolutions is collapsed
into a resolution list. -/
def resolveTypeAndCheckKeyField (dep : SpecDep) (typeName : String) (a : Analysis) :
    List Resolution :=
  let pathParts := jsSplitDot dep.path
  let targetField := pathParts.getLastD ""
  let currentPosition := walkSegments a pathParts.dropLast (some typeName)
  let parentType := a.getType currentPosition
  let fanOut : List Resolution :=
    match parentType with
    | some pt =>
      if assocFind pt.fields targetField = none ∧ pt.isInterface then
        (a.getImpls currentPosition).filterMap (fun implTypeName =>
          match assocFind a.types implTypeName with
          | some implType =>
            if (assocFind implType.fields targetField).isSome then
              some { actualType := some implTypeName
                     isKeyField := includes implType.keyFields targetField }
            else none
          | none => none)
      else []
    | none => []
  if fanOut ≠ [] then fanOut
  else
    let isKeyField :=
      match parentType with
      | some pt => includes pt.keyFields targetField
      | none => false
    [{ actualType := currentPosition, isKeyField := isKeyField }]

/-- The dependency-recording step shared by the three directive clauses of
`analyzeSchema`'s second pass (`@requires`/`@provides` and the two
`@join__field` arguments): resolve every parsed pair and push one Dependency
per resolution, overriding the directive name to `"key"` for key fields. -/
def recordClauseDeps (typeName fieldName fieldSubgraph directiveName : String)
    (specDeps : List SpecDep) (startType : String) (a : Analysis) : List Dependency :=
  specDeps.flatMap (fun dep =>
    (resolveTypeAndCheckKeyField dep startType a).map (fun r =>
      { dependingType := typeName
        dependingField := fieldName
        dependingSubgraph := fieldSubgraph
        dependedType := r.actualType
        dependedField := dep.field
        directive := if r.isKeyField then "key" else directiveName
        fieldPath := some dep.path }))

/-- Dependencies contributed by one directive of one field in `analyzeSchema`'s
second pass: the Federation-v1 `@requires`/`@provides` clause and the
Federation-v2 `@join__field` clause with its `graph`, `requires` and
`provides` arguments. -/
def directiveDeps (a : Analysis) (subgraph typeName : String) (ty : TypeDef)
    (fieldName : String) (field : FieldDef) (d : Directive) : List Dependency :=
  (if d.name = "requires" ∨ d.name = "provides" then
    match d.args.find? (fun arg => arg.name = "fields") with
    | some fieldsArg =>
      if fieldsArg.value ≠ "" then
        let deps := parseFieldSpec fieldsArg.value
        let startType := if d.name = "provides" then jsOr field.type typeName else typeName
        recordClauseDeps typeName fieldName subgraph d.name deps startType a
      else []
    | none => []
  else []) ++
  (if d.name = "join__field" then
    let fieldSubgraph :=
      match d.args.find? (fun arg => arg.name = "graph") with
      | some graphArg => graphArg.value
      | none => subgraph
    (match d.args.find? (fun arg => arg.name = "requires") with
     | some requiresArg =>
       if requiresArg.value ≠ "" then
         recordClauseDeps typeName fieldName fieldSubgraph "requires"
           (parseFieldSpec requiresArg.value) typeName a
       else []
     | none => []) ++
    (match d.args.find? (fun arg => arg.name = "provides") with
     | some providesArg =>
       if providesArg.value ≠ "" then
         let fieldReturnType :=
           match assocFind ty.fields fieldName with
           | some fieldInfo => fieldInfo.type
           | none => none
         recordClauseDeps typeName fieldName fieldSubgraph "provides"
           (parseFieldSpec providesArg.value) (jsOr fieldReturnType typeName) a
       else []
     | none => [])
  else [])

/-- Dependencies contributed by one field in `analyzeSchema`'s second pass:
the implicit `field_type` record (whose subgraph is the literal `"NONE"`)
followed by the per-directive records. -/
def fieldDeps (a : Analysis) (subgraph typeName : String) (ty : TypeDef)
    (fieldName : String) (field : FieldDef) : List Dependency :=
  (if strTruthy field.type ∧ (assocFind a.types (jsOr field.type "")).isSome then
    [{ dependingType := typeName
       dependingField := fieldName
       dependingSubgraph := "NONE"
       dependedType := field.type
       dependedField := fieldName
       directive := "field_type"
       fieldPath := some fieldName }]
  else []) ++
  field.directives.flatMap (directiveDeps a subgraph typeName ty fieldName field)

/-- Dependencies contributed by a type's declared key fields in
`analyzeSchema`'s second pass: the synthetic `_entity` record for extensions
and the self-referential `external` record for `@external` key fields. -/
def keyFieldDeps (subgraph typeName : String) (ty : TypeDef) : List Dependency :=
  if ty.keyFields.length > 0 then
    ty.keyFields.flatMap (fun keyField =>
      let fieldExists := (assocFind ty.fields keyField).isSome
      (if ty.isExtension then
        [{ dependingType := typeName
           dependingField := "_entity"
           dependingSubgraph := subgraph
           dependedType := some typeName
           dependedField := keyField
           directive := "key"
           fieldPath := some keyField }]
      else []) ++
      (if fieldExists then
        match assocFind ty.fields keyField with
        | some field =>
          if field.directives.any (fun dir => dir.name = "external") then
            [{ dependingType := typeName
               dependingField := keyField
               dependingSubgraph := subgraph
               dependedType := some typeName
               dependedField := keyField
               directive := "external"
               fieldPath := some keyField }]
          else []
        | none => []
      else []))
  else []

/-- The dependency-producing second pass of `analyzeSchema`, with the ambient
subgraph (computed once per schema by `extractSubgraph`) passed in as a
parameter. -/
def analyzeDeps (a : Analysis) (subgraph : String) : List Dependency :=
  a.types.flatMap (fun entry =>
    keyFieldDeps subgraph entry.1 entry.2 ++
    entry.2.fields.flatMap (fun fentry =>
      fieldDeps a subgraph entry.1 entry.2 fentry.1 fentry.2))

/-- Query options of `queryDependencies` (the `schema` option only selects the
cached analysis, which is passed explicitly here). -/
structure QueryOptions where
  field : Option String := none
  direct : Bool := false
  includeSameType : Bool := false
deriving DecidableEq

/-- Stringification used when building dedup keys from possibly-null fields
(JS template literals render `null` as `"null"`). -/
def optStr : Option String → String
  | none => "null"
  | some s => s

/-- The dedup key of `filterLeafDependencies` (query.js). -/
def depKey (dep : Dependency) : String :=
  dep.dependingType ++ "." ++ dep.dependingField ++ ":" ++ dep.dependingSubgraph ++ ":" ++
    optStr dep.dependedType ++ ":" ++ dep.dependedField ++ ":" ++ dep.directive

/-- `Map.set`: replace the value in place when the key exists, append
otherwise. -/
def setEntry : List (String × Dependency) → String → Dependency → List (String × Dependency)
  | [], k, d => [(k, d)]
  | (k', d') :: rest, k, d =>
    if k' = k then (k, d) :: rest else (k', d') :: setEntry rest k d

/-- JS `.length` of a possibly-null string (only consulted under truthiness
guards). -/
def jsLen : Option String → Nat
  | none => 0
  | some s => s.length

/-- One iteration of `filterLeafDependencies`'s forEach: insert an unseen key,
or keep the dependency with the longer (truthy) `fieldPath` for a seen key. -/
def filterStep (m : List (String × Dependency)) (dep : Dependency) :
    List (String × Dependency) :=
  let key := depKey dep
  match assocFind m key with
  | none => setEntry m key dep
  | some existing =>
    if strTruthy dep.fieldPath ∧
        (¬ strTruthy existing.fieldPath ∨ jsLen dep.fieldPath > jsLen existing.fieldPath) then
      setEntry m key dep
    else m

/-- `filterLeafDependencies` (query.js): deduplicate by `depKey`, keeping the
dependency with the longest `fieldPath` per key, in first-insertion order. -/
def filterLeafDependencies (dependencies : List Dependency) : List Dependency :=
  (dependencies.foldl filterStep []).map Prod.snd

/-- The per-dependency filter of `queryDependencies` (query.js): the three
inclusion routes, the field match, the same-type exclusion, and the two
skip conditions for field-specific and direct-only queries. -/
def queryKeep (a : Analysis) (type : String) (options : QueryOptions)
    (dep : Dependency) : Bool :=
  let isDependencyOnQueriedType : Bool :=
    if dep.dependedType = some type then true
    else if strTruthy dep.fieldPath then
      if dep.dependedType = none ∧ dep.dependingType = type then true
      else
        let pathSegments := jsSplitDot (dep.fieldPath.getD "")
        if pathSegments.length > 0 then
          match assocFind a.types type with
          | some typeInfo => (assocFind typeInfo.fields (pathSegments.headD "")).isSome
          | none => false
        else false
    else false
  let matchesField : Bool :=
    if strTruthy options.field then decide (dep.dependedField = options.field.getD "")
    else true
  if isDependencyOnQueriedType && matchesField &&
      (options.includeSameType || !(decide (dep.dependingType = type))) then
    if strTruthy options.field && strTruthy dep.dependedType &&
        !(decide (dep.dependedType = some type)) then false
    else if options.direct && !(decide (dep.dependedType = some type)) then false
    else true
  else false

/-- `queryDependencies` (query.js) over an explicit analysis result: filter the
dependency list and reduce it to leaf dependencies. -/
def queryDependencies (a : Analysis) (type : String) (options : QueryOptions) :
    List Dependency :=
  filterLeafDependencies (a.dependencies.filter (queryKeep a type options))

/-- The group key of the leaf-reduction grouping
(`dependingType.dependingField:dependingSubgraph`). -/
def groupKey (dep : Dependency) : String :=
  dep.dependingType ++ "." ++ dep.dependingField ++ ":" ++ dep.dependingSubgraph

/-- `q` extends `p` by at least one dot-separated segment: the strict-dot-prefix
test `q.startsWith(p + ".")` of the leaf reduction. -/
def isStrictDotPrefixOf (p q : String) : Bool :=
  List.isPrefixOf (p ++ ".").data q.data

/-! ### Concrete inputs used by the claim theorems and witnesses -/

/-- Query-time dependency whose `fieldPath` starts with a field name of `T`
but whose `dependedType` is `U`. -/
def c1Dep : Dependency :=
  ⟨"S", "g", "sg", some "U", "x", "requires", some "a.x"⟩

/-- A type `T` with a single field `a`. -/
def c1TypeT : TypeDef :=
  ⟨"T", [("a", ⟨"a", some "U", []⟩)], false, false, [], []⟩

/-- Analysis result holding `c1Dep` and the registry entry for `T`. -/
def c1Analysis : Analysis :=
  ⟨[("T", c1TypeT)], [], [c1Dep]⟩

/-- A type `T` whose field `g` carries `@requires(fields: "x")`, while `x` is
defined nowhere. -/
def c2TypeT : TypeDef :=
  ⟨"T", [("g", ⟨"g", some "Float", [⟨"requires", [⟨"fields", "x"⟩]⟩]⟩)], false, false, [], []⟩

/-- Registry for the unresolvable-segment scenario. -/
def c2Analysis : Analysis :=
  ⟨[("T", c2TypeT)], [], []⟩

/-- The dependency the analyzer emits for the unresolvable `@requires(fields:
"x")` of `c2Analysis`. -/
def c2Dep : Dependency :=
  ⟨"T", "g", "sg", some "T", "x", "requires", some "x"⟩

/-- Field `f : X` with no directives. -/
def c3FieldF : FieldDef := ⟨"f", some "X", []⟩

/-- Field `w : I` carrying `@provides(fields: "f")`. -/
def c3FieldW : FieldDef := ⟨"w", some "I", [⟨"provides", [⟨"fields", "f"⟩]⟩]⟩

/-- Implementation `A` declaring `f`. -/
def c3TypeA : TypeDef := ⟨"A", [("f", c3FieldF)], false, false, ["I"], []⟩

/-- Implementation `B` declaring `f`. -/
def c3TypeB : TypeDef := ⟨"B", [("f", c3FieldF)], false, false, ["I"], []⟩

/-- Type `W` whose field `w` is typed by the interface `I`. -/
def c3TypeW : TypeDef := ⟨"W", [("w", c3FieldW)], false, false, [], []⟩

/-- Registry in which the interface `I` itself declares `f` and is implemented
by `A` and `B`, which also declare `f`. -/
def c3Analysis : Analysis :=
  ⟨[("I", ⟨"I", [("f", c3FieldF)], true, false, [], []⟩),
    ("A", c3TypeA), ("B", c3TypeB), ("W", c3TypeW)],
   [("I", ["A", "B"])], []⟩

/-- Same registry except that `I` does not declare `f`. -/
def c3AnalysisNoF : Analysis :=
  ⟨[("I", ⟨"I", [], true, false, [], []⟩),
    ("A", c3TypeA), ("B", c3TypeB), ("W", c3TypeW)],
   [("I", ["A", "B"])], []⟩

/-- Leaf-reduction input: the ancestor (container) dependency of a nested
`@requires(fields: "dimensions \x7b length ... \x7d")`. -/
def c4DepAncestor : Dependency :=
  ⟨"Product", "volume", "test", some "Product", "dimensions", "requires", some "dimensions"⟩

/-- Leaf-reduction input: the leaf dependency under the same group. -/
def c4DepLeaf : Dependency :=
  ⟨"Product", "volume", "test", some "Dimensions", "length", "requires", some "dimensions.length"⟩

/-- Registry with an entity type `P` whose `id` is a declared key field. -/
def c5Analysis : Analysis :=
  ⟨[("P", ⟨"P", [("id", ⟨"id", some "ID", []⟩)], false, false, [], ["id"]⟩)], [], []⟩

/-- Query-time dependency with `dependedType = T` but a two-segment
`fieldPath`. -/
def c8Dep : Dependency :=
  ⟨"S", "g", "sg", some "T", "b", "requires", some "a.b"⟩

/-- Analysis result holding `c8Dep`. -/
def c8Analysis : Analysis :=
  ⟨[("T", c1TypeT)], [], [c8Dep]⟩

/-- Extension type `T` with a key field `k` marked `@external` and a field `u`
whose named type `U` is in the registry. -/
def c10TypeT : TypeDef :=
  ⟨"T", [("u", ⟨"u", some "U", []⟩), ("k", ⟨"k", some "ID", [⟨"external", []⟩]⟩)],
   false, true, [], ["k"]⟩

/-- Registry for the subgraph-attribution scenario. -/
def c10Analysis : Analysis :=
  ⟨[("T", c10TypeT), ("U", ⟨"U", [], false, false, [], []⟩)], [], []⟩

/-- The `field_type` dependency emitted for `T.u` in `c10Analysis`. -/
def c10FieldTypeDep : Dependency :=
  ⟨"T", "u", "NONE", some "U", "u", "field_type", some "u"⟩

/-! ### Claim theorems: concrete evaluations -/

/-- C1: the claim asserts that every Dependency returned by
`queryDependencies(T, options)` has `dependedType = T`.  Evaluating the code on
`c1Analysis` shows the name-based path heuristic returning a dependency whose
`dependedType` is `U` when querying `T` (with no options set). -/
theorem C1_queryDependencies_unsound_eval :
    queryDependencies c1Analysis "T" {} = [c1Dep] ∧
    c1Dep.dependedType = some "U" ∧ c1Dep.dependedType ≠ some "T" := by
  decide

/-- C2 counterexample: the claim asserts that an unresolvable field-spec path
contributes no Dependency record.  In `c2Analysis` the path `x` of
`@requires(fields: "x")` on `T.g` is unresolvable (`T` has no field `x` and is
not an interface), yet the analysis emits a Dependency for it. -/
theorem C2_unresolved_branch_counterexample :
    analyzeDeps c2Analysis "sg" = [c2Dep] ∧
    assocFind c2TypeT.fields "x" = none ∧ c2TypeT.isInterface = false := by
  decide

/-- C3 counterexample: the claim asserts that an interface `I` declaring `f`,
implemented by `A` and `B` that also declare `f`, yields two Dependencies with
`dependedType = A` and `B`.  Because `I` itself declares `f`, the resolver
takes the direct-field branch and the analysis emits exactly one Dependency
for the path `f`, with `dependedType = I`. -/
theorem C3_interface_fanout_counterexample :
    analyzeDeps c3Analysis "sg" =
      [⟨"W", "w", "NONE", some "I", "w", "field_type", some "w"⟩,
       ⟨"W", "w", "sg", some "I", "f", "provides", some "f"⟩] ∧
    ((analyzeDeps c3Analysis "sg").filter
      (fun d => decide (d.fieldPath = some "f"))).length = 1 := by
  decide

/-- C4: the claim asserts that after leaf reduction no surviving dependency's
`fieldPath` is a strict dot-prefix of another's within the same
`(dependingType, dependingField, dependingSubgraph)` group.  Evaluating
`filterLeafDependencies` (query.js) on an ancestor/leaf pair of the same group
shows both surviving, with the ancestor's path a strict dot-prefix of the
leaf's. -/
theorem C4_leaf_reduction_prefix_eval :
    filterLeafDependencies [c4DepAncestor, c4DepLeaf] = [c4DepAncestor, c4DepLeaf] ∧
    groupKey c4DepAncestor = groupKey c4DepLeaf ∧
    isStrictDotPrefixOf (c4DepAncestor.fieldPath.getD "") (c4DepLeaf.fieldPath.getD "") = true := by
  decide

/-- C6 counterexample: the claim asserts that a field-spec string consisting
only of `...TypeName` fragment-spread tokens yields the empty sequence.  The
tokenizer drops only the bare token `...`, so `"...Price"` is kept verbatim
and emits a pair. -/
theorem C6_fragment_spread_counterexample :
    parseFieldSpec "...Price" = [⟨"...Price", "...Price"⟩] ∧
    parseFieldSpec "...Price" ≠ [] := by
  decide

/-- C7 counterexample: the claim asserts that a nested `@key(fields: "a \x7b b \x7d")`
yields the dotted paths `["a", "a.b"]` (as the requires/provides tokenizer
does) with no brace tokens.  `extractKeyFields` instead splits the string flat
on whitespace, keeping the braces. -/
theorem C7_key_tokenize_counterexample :
    extractKeyFields [⟨"key", [⟨"fields", "a \x7b b \x7d"⟩]⟩] = ["a", "\x7b", "b", "\x7d"] ∧
    (parseFieldSpec "a \x7b b \x7d").map (fun d => d.path) = ["a", "a.b"] ∧
    extractKeyFields [⟨"key", [⟨"fields", "a \x7b b \x7d"⟩]⟩] ≠
      (parseFieldSpec "a \x7b b \x7d").map (fun d => d.path) ∧
    "\x7b" ∈ extractKeyFields [⟨"key", [⟨"fields", "a \x7b b \x7d"⟩]⟩] := by
  decide

/-- C7 amended: key fields are extracted as the flat whitespace-split chunks of
the `fields` string, retained verbatim: a nested spec `"a \x7b b \x7d"` yields the
chunks `a`, `\x7b`, `b`, `\x7d` (braces included, no dotted paths), while a flat
spec `"id sku"` yields `["id", "sku"]`. -/
theorem C7_key_flat_split_amended :
    extractKeyFields [⟨"key", [⟨"fields", "a \x7b b \x7d"⟩]⟩] = ["a", "\x7b", "b", "\x7d"] ∧
    extractKeyFields [⟨"key", [⟨"fields", "id sku"⟩]⟩] = ["id", "sku"] ∧
    "a.b" ∉ extractKeyFields [⟨"key", [⟨"fields", "a \x7b b \x7d"⟩]⟩] := by
  decide

/-- C8 counterexample: the claim asserts that with the `direct` option every
returned Dependency has a single-segment `fieldPath`.  The code's direct
filter only requires `dependedType` to equal the queried type, so a
two-segment dependency is returned. -/
theorem C8_direct_counterexample :
    queryDependencies c8Analysis "T" ⟨none, true, false⟩ = [c8Dep] ∧
    (jsSplitDot (c8Dep.fieldPath.getD "")).length = 2 := by
  decide

/-! ### Helper lemmas -/

/-- `includes` agrees with list membership. -/
theorem includes_iff {l : List String} {s : String} : includes l s = true ↔ s ∈ l := by
  induction l with
  | nil => simp [includes]
  | cons x xs ih =>
    by_cases h : x = s
    · subst h; simp [includes]
    · have h' : ¬ s = x := fun hs => h hs.symm
      simp [includes, h, h', ih]

/-- The resolver always returns at least one resolution: every `break` of the
segment loop leaves `currentPosition` in place, and the fall-through branch
returns a singleton. -/
theorem resolveTypeAndCheckKeyField_ne_nil (dep : SpecDep) (typeName : String)
    (a : Analysis) : resolveTypeAndCheckKeyField dep typeName a ≠ [] := by
  unfold resolveTypeAndCheckKeyField
  dsimp only
  split
  · next h => exact h
  · simp

/-! ### Claim theorems: general statements -/

/-- C2 amended: an unresolvable path segment stops the walk where it is, but
the branch still contributes a Dependency record (with `dependedType` the
position at which the walk stopped) — each parsed `(field, path)` pair yields
at least one record, so unresolved branches are never dropped. -/
theorem C2_unresolved_branch_amended
    (typeName fieldName fieldSubgraph directiveName startType : String)
    (specDeps : List SpecDep) (a : Analysis) :
    specDeps.length ≤
      (recordClauseDeps typeName fieldName fieldSubgraph directiveName specDeps startType a).length := by
  induction specDeps with
  | nil => simp [recordClauseDeps]
  | cons sd rest ih =>
    have h1 : 1 ≤ (resolveTypeAndCheckKeyField sd startType a).length := by
      cases hres : resolveTypeAndCheckKeyField sd startType a with
      | nil => exact absurd hres (resolveTypeAndCheckKeyField_ne_nil sd startType a)
      | cons r rs => simp
    simp only [recordClauseDeps, List.flatMap_cons, List.length_append, List.length_map,
      List.length_cons] at *
    omega

/-- C3 amended: for an interface that does **not** itself declare the resolved
field, implemented by two concrete types that both declare it, a directive
path reaching the interface and resolving that field produces exactly two
Dependencies — `dependedType` the first and second implementation, in the
order the implementations were registered.  (When the interface itself
declares the field, a single Dependency on the interface is produced
instead.) -/
theorem C3_interface_fanout_amended
    (a : Analysis) (iName f tn fn sg dir aN bN : String)
    (iT aT bT : TypeDef) (fa fb : FieldDef)
    (h0 : jsSplitDot f = [f])
    (h1 : assocFind a.types iName = some iT)
    (h2 : iT.isInterface = true)
    (h3 : assocFind iT.fields f = none)
    (h4 : assocFind a.implementations iName = some [aN, bN])
    (h5 : assocFind a.types aN = some aT)
    (h6 : assocFind aT.fields f = some fa)
    (h7 : assocFind a.types bN = some bT)
    (h8 : assocFind bT.fields f = some fb) :
    (recordClauseDeps tn fn sg dir [⟨f, f⟩] iName a).map (fun d => d.dependedType) =
      [some aN, some bN] := by
  simp only [recordClauseDeps, resolveTypeAndCheckKeyField, h0, List.getLastD,
    List.dropLast, walkSegments, Analysis.getType, Analysis.getImpls,
    h1, h2, h3, h4, Option.getD, List.filterMap, h5, h6, h7, h8, Option.isSome,
    List.flatMap_cons, List.flatMap_nil]
  simp [h3, h6, h8]

/-- C3 amended witness: instantiating the fan-out theorem on the concrete
registry in which `I` does not declare `f`. -/
theorem C3_interface_fanout_amended_witness :
    jsSplitDot "f" = ["f"] ∧
    (recordClauseDeps "W" "w" "sg" "provides" [⟨"f", "f"⟩] "I" c3AnalysisNoF).map
      (fun d => d.dependedType) = [some "A", some "B"] :=
  ⟨by decide,
   C3_interface_fanout_amended c3AnalysisNoF "I" "f" "W" "w" "sg" "provides" "A" "B"
     ⟨"I", [], true, false, [], []⟩ c3TypeA c3TypeB c3FieldF c3FieldF
     (by decide) (by decide) (by decide) (by decide) (by decide) (by decide) (by decide)
     (by decide) (by decide)⟩

/-- Key-field soundness of the resolver: any returned resolution whose
`actualType` is a registry type listing the target field among its
`keyFields` carries `isKeyField = true`. -/
theorem resolve_isKeyField_of_mem
    {dep : SpecDep} {typeName : String} {a : Analysis} {r : Resolution}
    {ty : String} {pt : TypeDef}
    (hr : r ∈ resolveTypeAndCheckKeyField dep typeName a)
    (hty : r.actualType = some ty)
    (hpt : assocFind a.types ty = some pt)
    (hkey : includes pt.keyFields ((jsSplitDot dep.path).getLastD "") = true) :
    r.isKeyField = true := by
  unfold resolveTypeAndCheckKeyField at hr
  dsimp only at hr
  split at hr
  · -- fan-out branch
    split at hr
    · rename_i pt0 hpt0
      split at hr
      · rw [List.mem_filterMap] at hr
        obtain ⟨implName, _, himpl⟩ := hr
        split at himpl
        · rename_i implType himplTy
          split at himpl
          · rw [Option.some_inj] at himpl
            subst himpl
            dsimp only at hty
            rw [Option.some_inj] at hty
            subst hty
            rw [himplTy] at hpt
            rw [Option.some_inj] at hpt
            subst hpt
            exact hkey
          · simp at himpl
        · simp at himpl
      · simp at hr
    · simp at hr
  · -- fall-through branch
    rw [List.mem_singleton] at hr
    subst hr
    dsimp only at hty ⊢
    rw [hty]
    simp only [Analysis.getType]
    rw [hpt]
    exact hkey

/-- C5: every Dependency produced from a `@requires`/`@provides`/`@join__field`
clause whose resolved depended field is listed in the resolved parent type's
`keyFields` carries `directive = "key"` instead of the clause name.  (The
hypothesis `hfields` records that each parsed pair's `field` is the final
segment of its `path`, which holds for all `parseFieldSpec` output whose
tokens contain no dots.) -/
theorem C5_key_reclassification
    (typeName fieldName fieldSubgraph directiveName startType : String)
    (specDeps : List SpecDep) (a : Analysis) (d : Dependency) (ty : String) (pt : TypeDef)
    (hfields : ∀ sd ∈ specDeps, sd.field = (jsSplitDot sd.path).getLastD "")
    (hd : d ∈ recordClauseDeps typeName fieldName fieldSubgraph directiveName specDeps startType a)
    (hty : d.dependedType = some ty)
    (hpt : assocFind a.types ty = some pt)
    (hkey : d.dependedField ∈ pt.keyFields) :
    d.directive = "key" := by
  rw [recordClauseDeps, List.mem_flatMap] at hd
  obtain ⟨sd, hsd, hd⟩ := hd
  rw [List.mem_map] at hd
  obtain ⟨r, hr, rfl⟩ := hd
  simp only at hty hkey ⊢
  have hfld := hfields sd hsd
  have hkf : r.isKeyField = true := by
    refine resolve_isKeyField_of_mem hr hty hpt ?_
    rw [← hfld]
    exact includes_iff.mpr hkey
  simp [hkf]

/-- C5 witness: the `@requires(fields: "id")` resolution against the entity
`P` (whose `keyFields` contain `id`) is recorded with `directive = "key"`. -/
theorem C5_key_reclassification_witness :
    (⟨"S", "f", "sg", some "P", "id", "key", some "id"⟩ : Dependency) ∈
      recordClauseDeps "S" "f" "sg" "requires" [⟨"id", "id"⟩] "P" c5Analysis ∧
    (⟨"S", "f", "sg", some "P", "id", "key", some "id"⟩ : Dependency).directive = "key" :=
  ⟨by decide,
   C5_key_reclassification "S" "f" "sg" "requires" "P" [⟨"id", "id"⟩] c5Analysis
     ⟨"S", "f", "sg", some "P", "id", "key", some "id"⟩ "P"
     ⟨"P", [("id", ⟨"id", some "ID", []⟩)], false, false, [], ["id"]⟩
     (by decide) (by decide) (by decide) (by decide) (by decide)⟩

/-- `setEntry` only produces entries from the original map or the inserted
pair. -/
theorem mem_setEntry {m : List (String × Dependency)} {k : String} {d : Dependency}
    {e : String × Dependency} (he : e ∈ setEntry m k d) : e ∈ m ∨ e = (k, d) := by
  induction m with
  | nil => simpa [setEntry] using he
  | cons p tl ih =>
    rcases p with ⟨k', d'⟩
    simp only [setEntry] at he
    split at he
    · rcases List.mem_cons.mp he with h1 | h1
      · right; exact h1
      · left; exact List.mem_cons_of_mem _ h1
    · rcases List.mem_cons.mp he with h1 | h1
      · left; rw [h1]; exact List.mem_cons_self _ _
      · rcases ih h1 with h2 | h2
        · left; exact List.mem_cons_of_mem _ h2
        · right; exact h2

/-- Every entry of the dedup fold comes from the starting map or from the
processed dependency list. -/
theorem mem_foldl_filterStep {l : List Dependency} {m : List (String × Dependency)}
    {e : String × Dependency} (he : e ∈ List.foldl filterStep m l) :
    e ∈ m ∨ e.2 ∈ l := by
  induction l generalizing m with
  | nil => left; simpa using he
  | cons d0 rest ih =>
    rcases ih (m := filterStep m d0) he with h | h
    · simp only [filterStep] at h
      split at h
      · rcases mem_setEntry h with h1 | h1
        · left; exact h1
        · right; rw [h1]; exact List.mem_cons_self _ _
      · split at h
        · rcases mem_setEntry h with h1 | h1
          · left; exact h1
          · right; rw [h1]; exact List.mem_cons_self _ _
        · left; exact h
    · right; exact List.mem_cons_of_mem _ h

/-- The leaf reduction only returns dependencies of its input list. -/
theorem mem_filterLeafDependencies {l : List Dependency} {d : Dependency}
    (hd : d ∈ filterLeafDependencies l) : d ∈ l := by
  rw [filterLeafDependencies, List.mem_map] at hd
  obtain ⟨e, he, rfl⟩ := hd
  rcases mem_foldl_filterStep he with h | h
  · simp at h
  · exact h

/-- C8 amended: with the `direct` option set, every Dependency returned by
`queryDependencies` has `dependedType` equal to the queried type (dependencies
admitted only by the first-segment name heuristic are excluded); multi-segment
`fieldPath`s are however not excluded. -/
theorem C8_direct_amended (a : Analysis) (type : String) (options : QueryOptions)
    (d : Dependency) (hdir : options.direct = true)
    (hd : d ∈ queryDependencies a type options) :
    d.dependedType = some type := by
  rw [queryDependencies] at hd
  have hmem := mem_filterLeafDependencies hd
  rw [List.mem_filter] at hmem
  have hkeep := hmem.2
  by_cases h : d.dependedType = some type
  · exact h
  · exfalso
    simp [queryKeep, hdir, h] at hkeep

/-- C8 amended witness: the amended theorem applied to the concrete direct
query of `c8Analysis`. -/
theorem C8_direct_amended_witness :
    c8Dep ∈ queryDependencies c8Analysis "T" ⟨none, true, false⟩ ∧
    c8Dep.dependedType = some "T" :=
  ⟨by decide, C8_direct_amended c8Analysis "T" ⟨none, true, false⟩ c8Dep rfl (by decide)⟩

/-- Every Dependency recorded for a directive clause carries the clause's
subgraph and either the clause's directive name or `"key"`. -/
theorem recordClauseDeps_directive {tn fn sg dir st : String} {sds : List SpecDep}
    {a : Analysis} {d : Dependency}
    (hd : d ∈ recordClauseDeps tn fn sg dir sds st a) :
    (d.directive = "key" ∨ d.directive = dir) ∧ d.dependingSubgraph = sg := by
  rw [recordClauseDeps, List.mem_flatMap] at hd
  obtain ⟨sd, _, hd⟩ := hd
  rw [List.mem_map] at hd
  obtain ⟨r, _, rfl⟩ := hd
  refine ⟨?_, rfl⟩
  by_cases hk : r.isKeyField = true <;> simp [hk]

/-- Every Dependency produced by one directive of one field has directive
`"key"`, `"requires"` or `"provides"`. -/
theorem directiveDeps_directive {a : Analysis} {sg tn : String} {ty : TypeDef}
    {fn : String} {field : FieldDef} {d0 : Directive} {d : Dependency}
    (hd : d ∈ directiveDeps a sg tn ty fn field d0) :
    d.directive = "key" ∨ d.directive = "requires" ∨ d.directive = "provides" := by
  simp only [directiveDeps] at hd
  rcases List.mem_append.mp hd with h | h
  · split at h
    · rename_i hname
      split at h
      · split at h
        · have hc := (recordClauseDeps_directive h).1
          rcases hc with hc | hc
          · exact Or.inl hc
          · rcases hname with hn | hn
            · exact Or.inr (Or.inl (hc.trans hn))
            · exact Or.inr (Or.inr (hc.trans hn))
        · simp at h
      · simp at h
    · simp at h
  · split at h
    · rcases List.mem_append.mp h with h2 | h2
      · split at h2
        · split at h2
          · have hc := (recordClauseDeps_directive h2).1
            rcases hc with hc | hc
            · exact Or.inl hc
            · exact Or.inr (Or.inl hc)
          · simp at h2
        · simp at h2
      · split at h2
        · split at h2
          · have hc := (recordClauseDeps_directive h2).1
            rcases hc with hc | hc
            · exact Or.inl hc
            · exact Or.inr (Or.inr hc)
          · simp at h2
        · simp at h2
    · simp at h

/-- Every Dependency produced by the key-field pass has directive `"key"` or
`"external"` and carries the ambient subgraph. -/
theorem keyFieldDeps_cases {sg tn : String} {ty : TypeDef} {d : Dependency}
    (hd : d ∈ keyFieldDeps sg tn ty) :
    (d.directive = "key" ∨ d.directive = "external") ∧ d.dependingSubgraph = sg := by
  simp only [keyFieldDeps] at hd
  split at hd
  · rw [List.mem_flatMap] at hd
    obtain ⟨kf, _, hd⟩ := hd
    rcases List.mem_append.mp hd with h | h
    · split at h
      · rw [List.mem_singleton] at h
        subst h
        exact ⟨Or.inl rfl, rfl⟩
      · simp at h
    · split at h
      · split at h
        · split at h
          · rw [List.mem_singleton] at h
            subst h
            exact ⟨Or.inr rfl, rfl⟩
          · simp at h
        · simp at h
      · simp at h
  · simp at hd

/-- Every Dependency produced for one field is either the implicit
`field_type` record (subgraph `"NONE"`) or a clause record with directive
`"key"`, `"requires"` or `"provides"`. -/
theorem fieldDeps_cases {a : Analysis} {sg tn : String} {ty : TypeDef}
    {fn : String} {field : FieldDef} {d : Dependency}
    (hd : d ∈ fieldDeps a sg tn ty fn field) :
    (d.directive = "field_type" ∧ d.dependingSubgraph = "NONE") ∨
    d.directive = "key" ∨ d.directive = "requires" ∨ d.directive = "provides" := by
  simp only [fieldDeps] at hd
  rcases List.mem_append.mp hd with h | h
  · split at h
    · rw [List.mem_singleton] at h
      subst h
      exact Or.inl ⟨rfl, rfl⟩
    · simp at h
  · rw [List.mem_flatMap] at h
    obtain ⟨d0, _, h⟩ := h
    exact Or.inr (directiveDeps_directive h)

/-- C10: every `field_type` Dependency emitted by the analysis pass has
`dependingSubgraph` equal to the literal `"NONE"`, whatever the ambient
subgraph is; `external` Dependencies (like the `_entity` key records) carry
the ambient subgraph instead. -/
theorem C10_field_type_subgraph (a : Analysis) (sg : String) (d : Dependency)
    (hd : d ∈ analyzeDeps a sg) :
    (d.directive = "field_type" → d.dependingSubgraph = "NONE") ∧
    (d.directive = "external" → d.dependingSubgraph = sg) := by
  rw [analyzeDeps, List.mem_flatMap] at hd
  obtain ⟨entry, _, hd⟩ := hd
  rcases List.mem_append.mp hd with h | h
  · obtain ⟨hdir, hsg⟩ := keyFieldDeps_cases h
    constructor
    · intro hft
      rcases hdir with hk | he
      · exact absurd (hft.symm.trans hk) (by decide)
      · exact absurd (hft.symm.trans he) (by decide)
    · intro _
      exact hsg
  · rw [List.mem_flatMap] at h
    obtain ⟨fentry, _, h⟩ := h
    rcases fieldDeps_cases h with ⟨hft, hsg⟩ | hrest
    · refine ⟨fun _ => hsg, fun hext => absurd (hext.symm.trans hft) (by decide)⟩
    · constructor
      · intro hft
        rcases hrest with hc | hc | hc <;> exact absurd (hft.symm.trans hc) (by decide)
      · intro hext
        rcases hrest with hc | hc | hc <;> exact absurd (hext.symm.trans hc) (by decide)

/-- C10 witness: in the concrete `c10Analysis` the `field_type` record for
`T.u` is emitted with subgraph `"NONE"` even though the ambient subgraph is
`"amb"`. -/
theorem C10_field_type_subgraph_witness :
    c10FieldTypeDep ∈ analyzeDeps c10Analysis "amb" ∧
    c10FieldTypeDep.dependingSubgraph = "NONE" :=
  ⟨by decide,
   (C10_field_type_subgraph c10Analysis "amb" c10FieldTypeDep (by decide)).1 (by decide)⟩

/-- A key that `assocFind` misses is not among the map's keys. -/
theorem assocFind_none_not_mem {β : Type} {m : List (String × β)} {k : String}
    (h : assocFind m k = none) : k ∉ m.map Prod.fst := by
  induction m with
  | nil => simp
  | cons e tl ih =>
    rcases e with ⟨k', v⟩
    simp only [assocFind] at h
    split at h
    · exact absurd h (by simp)
    · rename_i hne
      simp only [List.map_cons, List.mem_cons]
      rintro (h1 | h1)
      · exact hne h1.symm
      · exact ih h h1

/-- `setEntry` on a missing key appends the pair at the end. -/
theorem setEntry_eq_append_of_none {m : List (String × Dependency)} {k : String}
    {d : Dependency} (h : assocFind m k = none) : setEntry m k d = m ++ [(k, d)] := by
  induction m with
  | nil => simp [setEntry]
  | cons e tl ih =>
    rcases e with ⟨k', v⟩
    simp only [assocFind] at h
    split at h
    · exact absurd h (by simp)
    · rename_i hne
      simp only [setEntry, if_neg hne, List.cons_append, List.cons.injEq, true_and]
      exact ih h

/-- `setEntry` on a present key keeps the key sequence unchanged. -/
theorem setEntry_map_fst_some {m : List (String × Dependency)} {k : String}
    {d x : Dependency} (h : assocFind m k = some x) :
    (setEntry m k d).map Prod.fst = m.map Prod.fst := by
  induction m with
  | nil => simp [assocFind] at h
  | cons e tl ih =>
    rcases e with ⟨k', v⟩
    simp only [assocFind] at h
    by_cases hk : k' = k
    · simp [setEntry, hk]
    · rw [if_neg hk] at h
      simp only [setEntry, if_neg hk, List.map_cons]
      rw [ih h]

/-- Appending does not change lookups that miss the first map. -/
theorem assocFind_append_of_none {β : Type} {m m' : List (String × β)} {k : String}
    (h : assocFind m k = none) : assocFind (m ++ m') k = assocFind m' k := by
  induction m with
  | nil => rfl
  | cons e tl ih =>
    rcases e with ⟨k', v⟩
    simp only [assocFind] at h
    split at h
    · exact absurd h (by simp)
    · rename_i hne
      simp only [List.cons_append, assocFind, if_neg hne]
      exact ih h

/-- Invariant of the dedup fold: every stored entry's key is the `depKey` of
its stored dependency. -/
theorem foldl_filterStep_keys {l : List Dependency} {m : List (String × Dependency)}
    (hm : ∀ e ∈ m, e.1 = depKey e.2) :
    ∀ e ∈ List.foldl filterStep m l, e.1 = depKey e.2 := by
  induction l generalizing m with
  | nil => simpa using hm
  | cons d0 rest ih =>
    intro e he
    refine ih (m := filterStep m d0) ?_ e he
    intro e' he'
    simp only [filterStep] at he'
    split at he'
    · rcases mem_setEntry he' with h1 | h1
      · exact hm e' h1
      · rw [h1]
    · split at he'
      · rcases mem_setEntry he' with h1 | h1
        · exact hm e' h1
        · rw [h1]
      · exact hm e' he'

/-- Invariant of the dedup fold: stored keys stay pairwise distinct. -/
theorem foldl_filterStep_nodup {l : List Dependency} {m : List (String × Dependency)}
    (hm : (m.map Prod.fst).Nodup) :
    ((List.foldl filterStep m l).map Prod.fst).Nodup := by
  induction l generalizing m with
  | nil => simpa using hm
  | cons d0 rest ih =>
    refine ih (m := filterStep m d0) ?_
    simp only [filterStep]
    split
    · rename_i hf
      rw [setEntry_eq_append_of_none hf]
      have hnot := assocFind_none_not_mem hf
      simp only [List.map_append, List.map_cons, List.map_nil]
      rw [List.nodup_append]
      refine ⟨hm, List.nodup_singleton _, ?_⟩
      intro x hx hx1
      rw [List.mem_singleton] at hx1
      exact hnot (hx1 ▸ hx)
    · split
      · rename_i hf _
        rw [setEntry_map_fst_some hf]
        exact hm
      · exact hm

/-- Running the dedup fold over dependencies whose keys are fresh and pairwise
distinct simply appends them all. -/
theorem foldl_filterStep_fresh {l : List Dependency} {m : List (String × Dependency)}
    (hfresh : ∀ d ∈ l, assocFind m (depKey d) = none)
    (hnd : (l.map depKey).Nodup) :
    List.foldl filterStep m l = m ++ l.map (fun d => (depKey d, d)) := by
  induction l generalizing m with
  | nil => simp
  | cons d0 rest ih =>
    have h0 : assocFind m (depKey d0) = none := hfresh d0 (List.mem_cons_self _ _)
    have hstep : filterStep m d0 = m ++ [(depKey d0, d0)] := by
      simp only [filterStep, h0]
      exact setEntry_eq_append_of_none h0
    have hnd0 : (depKey d0 :: rest.map depKey).Nodup := by
      rw [List.map_cons] at hnd
      exact hnd
    have hnotin : depKey d0 ∉ rest.map depKey := (List.nodup_cons.mp hnd0).1
    have hfresh' : ∀ d ∈ rest, assocFind (m ++ [(depKey d0, d0)]) (depKey d) = none := by
      intro d hdm
      rw [assocFind_append_of_none (hfresh d (List.mem_cons_of_mem _ hdm))]
      have hne : ¬ depKey d0 = depKey d := by
        intro hEq
        exact hnotin (hEq ▸ List.mem_map_of_mem depKey hdm)
      simp [assocFind, hne]
    have hnd' : (rest.map depKey).Nodup := (List.nodup_cons.mp hnd0).2
    rw [List.foldl_cons, hstep, ih hfresh' hnd']
    simp

/-- Pointwise form of the key invariant: re-pairing the stored dependencies
with their keys reproduces the map. -/
theorem map_key_pair_eq {m : List (String × Dependency)}
    (hkc : ∀ e ∈ m, e.1 = depKey e.2) :
    (m.map Prod.snd).map (fun d => (depKey d, d)) = m := by
  induction m with
  | nil => rfl
  | cons e tl ih =>
    have h1 := hkc e (List.mem_cons_self _ _)
    rcases e with ⟨k, v⟩
    simp only at h1
    simp only [List.map_cons]
    rw [ih (fun x hx => hkc x (List.mem_cons_of_mem _ hx)), h1]

/-- C9: the leaf reduction is idempotent — applying `filterLeafDependencies`
to its own output returns the same list (hence the same set). -/
theorem C9_leaf_reduction_idempotent (dependencies : List Dependency) :
    filterLeafDependencies (filterLeafDependencies dependencies) =
      filterLeafDependencies dependencies := by
  have hkc := foldl_filterStep_keys (l := dependencies)
    (m := []) (by intro e he; simp at he)
  have hnd := foldl_filterStep_nodup (l := dependencies) (m := []) (by simp)
  have hpair := map_key_pair_eq hkc
  have hkeys : ((List.foldl filterStep [] dependencies).map Prod.snd).map depKey =
      (List.foldl filterStep [] dependencies).map Prod.fst := by
    have h := congrArg (List.map Prod.fst) hpair
    simpa [List.map_map, Function.comp] using h
  have hfresh : ∀ d ∈ (List.foldl filterStep [] dependencies).map Prod.snd,
      assocFind ([] : List (String × Dependency)) (depKey d) = none := by
    intro d _
    rfl
  have h2 := foldl_filterStep_fresh hfresh (by rw [hkeys]; exact hnd)
  unfold filterLeafDependencies
  rw [h2]
  simp [List.map_map, Function.comp]

/-- `dropWhile` on whitespace leaves a whitespace-free list unchanged. -/
theorem dropWhile_ws_eq_self {cs : List Char} (h : ∀ c ∈ cs, ¬ c.isWhitespace = true) :
    cs.dropWhile Char.isWhitespace = cs := by
  cases cs with
  | nil => rfl
  | cons a l =>
    have ha := h a (List.mem_cons_self a l)
    simp [List.dropWhile_cons, ha]

/-- `jsTrim` leaves a whitespace-free list unchanged. -/
theorem jsTrim_eq_self {cs : List Char} (h : ∀ c ∈ cs, ¬ c.isWhitespace = true) :
    jsTrim cs = cs := by
  unfold jsTrim
  rw [dropWhile_ws_eq_self h]
  rw [dropWhile_ws_eq_self (fun c hc => h c (List.mem_reverse.mp hc))]
  exact List.reverse_reverse cs

/-- Splitting a whitespace-free list yields at most the single chunk. -/
theorem jsSplitWsAux_no_ws {cs cur : List Char}
    (h : ∀ c ∈ cs, ¬ c.isWhitespace = true) :
    jsSplitWsAux cs cur = if cur ++ cs = [] then [] else [String.mk (cur ++ cs)] := by
  induction cs generalizing cur with
  | nil => simp [jsSplitWsAux]
  | cons c rest ih =>
    have hc := h c (List.mem_cons_self _ _)
    have hstep : jsSplitWsAux (c :: rest) cur = jsSplitWsAux rest (cur ++ [c]) := by
      simp [jsSplitWsAux, hc]
    rw [hstep, ih (fun c' hc' => h c' (List.mem_cons_of_mem _ hc'))]
    have hne : ¬ (cur ++ [c]) ++ rest = [] := by simp
    have hne2 : ¬ cur ++ c :: rest = [] := by simp
    rw [if_neg hne, if_neg hne2]
    simp

/-- Tokenizer loop on input made only of simple whitespace and whole chunks
equal to the bare spread punctuation: nothing is ever emitted. -/
theorem tokLoop_spread_only {cs : List Char} {tokens : List String} {cur : List Char}
    (hsimple : ∀ c ∈ cs,
      c = ' ' ∨ c = '\n' ∨ c = '\t' ∨ (¬ c.isWhitespace = true ∧ c ≠ '{' ∧ c ≠ '}'))
    (hcur : ∀ c ∈ cur, ¬ c.isWhitespace = true)
    (hparts : ∀ p ∈ jsSplitWsAux cs cur, p = "...") :
    tokLoop cs tokens cur = tokens := by
  induction cs generalizing tokens cur with
  | nil =>
    have htrim := jsTrim_eq_self hcur
    by_cases hc : cur = []
    · subst hc
      rfl
    · have hmkcur : String.mk cur = "..." := by
        refine hparts _ ?_
        simp [jsSplitWsAux, hc]
      simp only [tokLoop]
      rw [if_neg (by rw [htrim]; exact hc)]
      rw [flushParts, htrim]
      have hsplit : jsSplitWs cur = [String.mk cur] := by
        rw [jsSplitWs, jsSplitWsAux_no_ws hcur]
        simp [hc]
      rw [hsplit, hmkcur]
      simp
  | cons c rest ih =>
    by_cases hbrace : c = '{' ∨ c = '}'
    · exfalso
      rcases hsimple c (List.mem_cons_self _ _) with h | h | h | ⟨_, hb1, hb2⟩
      · subst h; rcases hbrace with hb | hb <;> exact absurd hb (by decide)
      · subst h; rcases hbrace with hb | hb <;> exact absurd hb (by decide)
      · subst h; rcases hbrace with hb | hb <;> exact absurd hb (by decide)
      · rcases hbrace with hb | hb
        · exact hb1 hb
        · exact hb2 hb
    · by_cases hws : c = ' ' ∨ c = '\n' ∨ c = '\t'
      · have hwsb : c.isWhitespace = true := by
          rcases hws with h | h | h <;> subst h <;> decide
        simp only [tokLoop]
        rw [if_neg hbrace, if_pos hws]
        by_cases hc : cur = []
        · subst hc
          rw [if_pos (show jsTrim [] = [] from rfl)]
          refine ih (fun c' hc' => hsimple c' (List.mem_cons_of_mem _ hc'))
            (by intro c' hc'; simp at hc') ?_
          intro p hp
          refine hparts p ?_
          simp [jsSplitWsAux, hwsb]
          exact hp
        · have htrim := jsTrim_eq_self hcur
          have hmkcur : String.mk cur = "..." := by
            refine hparts _ ?_
            simp only [jsSplitWsAux, hwsb, if_pos rfl, if_neg hc]
            exact List.mem_cons_self _ _
          rw [if_neg (by rw [htrim]; exact hc)]
          rw [if_pos (by rw [htrim]; exact hmkcur)]
          refine ih (fun c' hc' => hsimple c' (List.mem_cons_of_mem _ hc'))
            (by intro c' hc'; simp at hc') ?_
          intro p hp
          refine hparts p ?_
          simp only [jsSplitWsAux, hwsb, if_pos rfl, if_neg hc]
          exact List.mem_cons_of_mem _ hp
      · have hnws : ¬ c.isWhitespace = true := by
          rcases hsimple c (List.mem_cons_self _ _) with h | h | h | ⟨hnw, _, _⟩
          · exact absurd (Or.inl h) hws
          · exact absurd (Or.inr (Or.inl h)) hws
          · exact absurd (Or.inr (Or.inr h)) hws
          · exact hnw
        simp only [tokLoop]
        rw [if_neg hbrace, if_neg hws]
        refine ih (fun c' hc' => hsimple c' (List.mem_cons_of_mem _ hc')) ?_ ?_
        · intro c' hc'
          rcases List.mem_append.mp hc' with h1 | h1
          · exact hcur c' h1
          · rw [List.mem_singleton] at h1
            rw [h1]
            exact hnws
        · intro p hp
          refine hparts p ?_
          simp only [jsSplitWsAux, hnws]
          exact hp

/-- C6 amended: a field-spec string consisting only of whitespace and bare
`...` chunks parses to the empty sequence — the tokenizer drops exactly the
chunks that are the three dots.  A spread written as one chunk `...TypeName`
is instead kept verbatim as a field name and emits a pair (see the
counterexample). -/
theorem C6_fragment_spread_amended (s : String)
    (hsimple : ∀ c ∈ s.data,
      c = ' ' ∨ c = '\n' ∨ c = '\t' ∨ (¬ c.isWhitespace = true ∧ c ≠ '{' ∧ c ≠ '}'))
    (hparts : ∀ p ∈ jsSplitWs s.data, p = "...") :
    parseFieldSpec s = [] := by
  have htok : tokenizeFieldSpec s = [] := by
    rw [tokenizeFieldSpec]
    exact tokLoop_spread_only hsimple (by intro c hc; simp at hc) hparts
  rw [parseFieldSpec, htok]
  rfl

/-- C6 amended witness: the theorem applied to `"... ... ..."`. -/
theorem C6_fragment_spread_amended_witness :
    (∀ p ∈ jsSplitWs ("... ... ...").data, p = "...") ∧
    parseFieldSpec "... ... ..." = [] :=
  ⟨by decide, C6_fragment_spread_amended "... ... ..." (by decide) (by decide)⟩

end Fgql
